import Mathlib

/-!
Verification of the transport core of the go-mlflow client
(`mlflow/mlflow.go`, `mlflow/errors.go`).

Shallow embedding conventions:
* Go strings and byte streams are modelled as `List Char`.
* Go `int` is modelled as `Int` (status codes never overflow 64 bits here).
* The JSON values that `encoding/json` marshals/unmarshals are modelled by the
  inductive `Json` below, restricted to integral numbers (the DTOs of this
  repository use string/int/bool/array/object fields; the float fragment is
  outside the modelled claims).
* An HTTP response body is modelled as a stream whose single `Read` call
  yields all of its bytes (the behaviour of `bytes.Reader` and of a buffered
  HTTP body for a response that fits in one read).  `json.Decoder`'s `refill`
  therefore moves the whole body into the decoder's private buffer before the
  first scan, and a later `io.Copy` from the same stream reads nothing.
-/

namespace Mlflow

/-- Model of the JSON values handled by `encoding/json` for this client
(numbers restricted to integers; the repository's DTO fields are strings,
ints, bools, arrays and objects). Objects keep their field list verbatim. -/
inductive Json where
  | null : Json
  | bool (b : Bool) : Json
  | num (n : Int) : Json
  | str (s : List Char) : Json
  | arr (elems : List Json) : Json
  | obj (fields : List (List Char × Json)) : Json

mutual

/-- Size measure used as parser fuel accounting. -/
def jsize : Json → Nat
  | .null => 1
  | .bool _ => 1
  | .num _ => 1
  | .str _ => 1
  | .arr l => 1 + lsizeJ l
  | .obj fs => 1 + fsizeJ fs

def lsizeJ : List Json → Nat
  | [] => 0
  | x :: xs => 1 + jsize x + lsizeJ xs

def fsizeJ : List (List Char × Json) → Nat
  | [] => 0
  | (_, v) :: xs => 1 + jsize v + fsizeJ xs

end

/-- The character for decimal digit `d` (`'0' + d` in Go's strconv). -/
def digitChar (d : Nat) : Char := Char.ofNat (48 + d)

/-- Digit loop of Go's `strconv.AppendInt` for non-negative values, with
explicit fuel so that the definition is structurally recursive (the fuel is
always sufficient, see `natDigits`). -/
def natDigitsAux : Nat → Nat → List Char
  | 0, _ => []
  | fuel + 1, n =>
    if n < 10 then [digitChar n]
    else natDigitsAux fuel (n / 10) ++ [digitChar (n % 10)]

/-- Decimal digits of `n`, most significant first. -/
def natDigits (n : Nat) : List Char := natDigitsAux (n + 1) n

/-- Decimal rendering of an `Int`, as `strconv.AppendInt` produces. -/
def intRender (n : Int) : List Char :=
  if n < 0 then '-' :: natDigits n.natAbs else natDigits n.natAbs

def isDigit (c : Char) : Bool := '0' ≤ c && c ≤ '9'

/-- Numeric value of a run of decimal digits. -/
def digitsVal (ds : List Char) : Nat :=
  ds.foldl (fun a c => a * 10 + (c.toNat - 48)) 0

/-- Characters Go's `encoding/json` string encoder leaves unescaped:
everything except `"` and `\`, the HTML-escaped `<`, `>`, `&`, control
characters below 0x20, and U+2028/U+2029. -/
def safeChar (c : Char) : Bool :=
  32 ≤ c.toNat && c ≠ '"' && c ≠ '\\' && c ≠ '<' && c ≠ '>' && c ≠ '&' &&
    c.toNat ≠ 0x2028 && c.toNat ≠ 0x2029

def hexDigitChar (d : Nat) : Char :=
  if d < 10 then digitChar d else Char.ofNat (87 + d)

/-- Escape sequence emitted by `encoding/json` for one character. -/
def escapeChar (c : Char) : List Char :=
  if safeChar c then [c]
  else if c = '"' then ['\\', '"']
  else if c = '\\' then ['\\', '\\']
  else if c = '\n' then ['\\', 'n']
  else if c = '\r' then ['\\', 'r']
  else if c = '\t' then ['\\', 't']
  else ['\\', 'u', hexDigitChar (c.toNat / 4096 % 16), hexDigitChar (c.toNat / 256 % 16),
        hexDigitChar (c.toNat / 16 % 16), hexDigitChar (c.toNat % 16)]

/-- JSON string literal as `encoding/json` renders it. -/
def renderStr (s : List Char) : List Char :=
  '"' :: s.flatMap escapeChar ++ ['"']

mutual

/-- Model of `json.Marshal` on the modelled fragment: compact rendering,
no added whitespace, array/object elements comma separated. -/
def render : Json → List Char
  | .null => "null".toList
  | .bool true => "true".toList
  | .bool false => "false".toList
  | .num n => intRender n
  | .str s => renderStr s
  | .arr l => '[' :: renderElems l ++ [']']
  | .obj fs => '{' :: renderFields fs ++ ['}']

def renderElems : List Json → List Char
  | [] => []
  | [x] => render x
  | x :: y :: xs => render x ++ ',' :: renderElems (y :: xs)

def renderFields : List (List Char × Json) → List Char
  | [] => []
  | [(k, v)] => renderStr k ++ ':' :: render v
  | (k, v) :: f :: fs => renderStr k ++ ':' :: render v ++ ',' :: renderFields (f :: fs)

end

/-- Decode failure of the modelled `json.Decoder`: `eof` models `io.EOF`,
reported exactly when no value begins before the input ends; `malformed`
models every other failure (syntax error, truncated value — Go's
`io.ErrUnexpectedEOF` — or a type mismatch while unmarshalling). -/
inductive PErr where
  | eof : PErr
  | malformed : PErr
deriving DecidableEq

/-- JSON insignificant whitespace. -/
def isWs (c : Char) : Bool := c = ' ' || c = '\t' || c = '\n' || c = '\r'

def skipWs : List Char → List Char
  | [] => []
  | c :: rest => if isWs c then skipWs rest else c :: rest

def hexVal (c : Char) : Option Nat :=
  if '0' ≤ c && c ≤ '9' then some (c.toNat - 48)
  else if 'a' ≤ c && c ≤ 'f' then some (c.toNat - 87)
  else if 'A' ≤ c && c ≤ 'F' then some (c.toNat - 55)
  else none

/-- Body of a JSON string literal after the opening quote: the decoded
characters plus the input after the closing quote.  Escapes follow
`encoding/json` (surrogate-pair recombination omitted; the claims' strings
stay in the basic plane). -/
def pStringAux : List Char → Option (List Char × List Char)
  | [] => none
  | c :: rest =>
    if c = '"' then some ([], rest)
    else if c = '\\' then
      match rest with
      | 'u' :: h1 :: h2 :: h3 :: h4 :: rest2 =>
        match hexVal h1, hexVal h2, hexVal h3, hexVal h4 with
        | some a, some b, some c1, some d =>
          (pStringAux rest2).map
            (fun p => (Char.ofNat (4096 * a + 256 * b + 16 * c1 + d) :: p.1, p.2))
        | _, _, _, _ => none
      | e :: rest2 =>
        let dec : Option Char :=
          if e = '"' then some '"' else if e = '\\' then some '\\'
          else if e = '/' then some '/' else if e = 'n' then some '\n'
          else if e = 't' then some '\t' else if e = 'r' then some '\r'
          else if e = 'b' then some (Char.ofNat 8) else if e = 'f' then some (Char.ofNat 12)
          else none
        match dec with
        | some c2 => (pStringAux rest2).map (fun p => (c2 :: p.1, p.2))
        | none => none
      | [] => none
    else (pStringAux rest).map (fun p => (c :: p.1, p.2))

/-- Digit run of a JSON number after the optional minus sign (integral
fragment; a fraction or exponent is rejected by the model — no claim of this
repository involves floats). -/
def pNumCore (u : List Char) (mk : Nat → Int) : Except PErr (Json × List Char) :=
  if (u.takeWhile isDigit).isEmpty then .error .malformed
  else if (u.dropWhile isDigit).head?.any (fun c => c = '.' || c = 'e' || c = 'E') then
    .error .malformed
  else .ok (.num (mk (digitsVal (u.takeWhile isDigit))), u.dropWhile isDigit)

/-- One JSON number token. -/
def pNumber (s : List Char) : Except PErr (Json × List Char) :=
  if s.head? = some '-' then pNumCore s.tail (fun m => -(m : Int))
  else pNumCore s (fun m => (m : Int))

/-- A truncated nested value is `io.ErrUnexpectedEOF` for `json.Decoder`, not
`io.EOF`; this maps the nested end-of-input accordingly. -/
def nestErr {α : Type} : Except PErr α → Except PErr α
  | .error .eof => .error .malformed
  | x => x

mutual

/-- One JSON value in the stream style of `json.Decoder.Decode`: leading
whitespace skipped, one value parsed, everything after it left unread.  The
fuel bounds the nesting depth; `decodeOneValue` supplies enough for every
parseable input. -/
def pVal : Nat → List Char → Except PErr (Json × List Char)
  | 0, _ => .error .malformed
  | fuel + 1, s =>
    match skipWs s with
    | [] => .error .eof
    | c :: rest =>
      if c = 'n' then
        match rest with
        | 'u' :: 'l' :: 'l' :: r => .ok (.null, r)
        | _ => .error .malformed
      else if c = 't' then
        match rest with
        | 'r' :: 'u' :: 'e' :: r => .ok (.bool true, r)
        | _ => .error .malformed
      else if c = 'f' then
        match rest with
        | 'a' :: 'l' :: 's' :: 'e' :: r => .ok (.bool false, r)
        | _ => .error .malformed
      else if c = '"' then
        match pStringAux rest with
        | some (cs, r) => .ok (.str cs, r)
        | none => .error .malformed
      else if c = '[' then
        if (skipWs rest).head? = some ']' then .ok (.arr [], (skipWs rest).tail)
        else (pElems fuel (skipWs rest)).map (fun p => (.arr p.1, p.2))
      else if c = '{' then
        if (skipWs rest).head? = some '}' then .ok (.obj [], (skipWs rest).tail)
        else (pFields fuel (skipWs rest)).map (fun p => (.obj p.1, p.2))
      else if c = '-' || isDigit c then pNumber (c :: rest)
      else .error .malformed

/-- Comma-separated array elements up to and including the closing bracket. -/
def pElems : Nat → List Char → Except PErr (List Json × List Char)
  | 0, _ => .error .malformed
  | fuel + 1, s => do
    let (v, s1) ← nestErr (pVal fuel s)
    if (skipWs s1).head? = some ',' then
      (pElems fuel (skipWs s1).tail).map (fun p => (v :: p.1, p.2))
    else if (skipWs s1).head? = some ']' then .ok ([v], (skipWs s1).tail)
    else .error .malformed

/-- Comma-separated object members up to and including the closing brace. -/
def pFields : Nat → List Char → Except PErr (List (List Char × Json) × List Char)
  | 0, _ => .error .malformed
  | fuel + 1, s =>
    if (skipWs s).head? = some '"' then
      match pStringAux (skipWs s).tail with
      | none => .error .malformed
      | some (k, r1) =>
        if (skipWs r1).head? = some ':' then do
          let (v, r3) ← nestErr (pVal fuel (skipWs r1).tail)
          if (skipWs r3).head? = some ',' then
            (pFields fuel (skipWs r3).tail).map (fun p => ((k, v) :: p.1, p.2))
          else if (skipWs r3).head? = some '}' then .ok ([(k, v)], (skipWs r3).tail)
          else .error .malformed
        else .error .malformed
    else .error .malformed

end

/-- Model of one `json.NewDecoder(r).Decode(...)` call on a fully buffered
input.  The fuel `s.length + 1` is sufficient for every parseable input,
because each nesting level consumes its opening and closing character. -/
def decodeOneValue (s : List Char) : Except PErr (Json × List Char) :=
  pVal (s.length + 1) s

/-- `mlflow/errors.go`: the `Error` struct.  `StatusCode` carries no json tag,
`ErrorCode` is tagged `error_code`, `Message` is tagged `message`. -/
structure Error where
  statusCode : Int
  errorCode : List Char
  message : List Char
deriving DecidableEq

def asciiLower (c : Char) : Char :=
  if 'A' ≤ c && c ≤ 'Z' then Char.ofNat (c.toNat + 32) else c

/-- `encoding/json` key-to-field matching: an exact match on the field's
effective name (its tag name, or the field name when untagged) is preferred,
with an ASCII-case-insensitive match accepted otherwise.  The three effective
names of `Error` fold to distinct strings, so this is equivalent to the
case-insensitive comparison. -/
def keyMatches (k name : List Char) : Bool :=
  k.map asciiLower == name.map asciiLower

/-- Model of `json.Unmarshal` into the `Error` struct: `null` leaves the
struct untouched; an object assigns each member whose key matches a field,
recording (and continuing past) type mismatches as Go's decoder does; any
other value is a type mismatch.  The returned flag is `true` when the decode
reported an error. -/
def unmarshalError (j : Json) (e : Error) : Error × Bool :=
  match j with
  | .null => (e, false)
  | .obj fields =>
    fields.foldl
      (fun acc kv =>
        let (e, errored) := acc
        let (k, v) := kv
        if keyMatches k "StatusCode".toList then
          match v with
          | .num n => ({ e with statusCode := n }, errored)
          | .null => (e, errored)
          | _ => (e, true)
        else if keyMatches k "error_code".toList then
          match v with
          | .str s => ({ e with errorCode := s }, errored)
          | .null => (e, errored)
          | _ => (e, true)
        else if keyMatches k "message".toList then
          match v with
          | .str s => ({ e with message := s }, errored)
          | .null => (e, errored)
          | _ => (e, true)
        else (e, errored))
      (e, false)
  | _ => (e, true)

/-- A response body stream.  Its single `Read` yields every byte it holds
(see the header comment); reading again yields nothing. -/
structure BodyStream where
  data : List Char
deriving DecidableEq

/-- Reading the stream to exhaustion: all bytes, and the drained stream. -/
def readAll (b : BodyStream) : List Char × BodyStream := (b.data, ⟨[]⟩)

/-- Model of `mlflow.go` lines 96–104: `e := Error{StatusCode: res.StatusCode}`,
`json.NewDecoder(res.Body).Decode(&e)`, and on decode failure
`io.Copy(buf, res.Body)` into `e.Message`.  The decoder's refill has already
drained the stream into its private buffer, so the fallback copy reads only
the drained remainder. -/
def errorDecode (status : Int) (body : BodyStream) : Error :=
  let e0 : Error := { statusCode := status, errorCode := [], message := [] }
  let (buffered, body1) := readAll body
  match decodeOneValue buffered with
  | .ok (j, _) =>
    let (e, errored) := unmarshalError j e0
    if errored then { e with message := body1.data } else e
  | .error _ => { e0 with message := body1.data }

/-- An `io.Writer` result sink, with an injectable write fault: the writer
accepts up to `failAfter` further bytes and then fails (`failAfter = none`
means it never fails). -/
structure MWriter where
  written : List Char
  failAfter : Option Nat
deriving DecidableEq

/-- One `Write` call; on a fault the writer reports a short write after
accepting a prefix, as `io.Copy` then surfaces. -/
def wWrite (w : MWriter) (b : List Char) : MWriter × Bool :=
  match w.failAfter with
  | none => ({ w with written := w.written ++ b }, false)
  | some n =>
    if b.length ≤ n then ({ written := w.written ++ b, failAfter := some (n - b.length) }, false)
    else ({ written := w.written ++ b.take n, failAfter := some 0 }, true)

/-- The result sink of `Client.Do` (`response interface{}`): `discard` is the
nil sink, `writer` an `io.Writer`, `structured` a typed JSON target whose
state is `none` while it still holds its zero value. -/
inductive Sink where
  | discard : Sink
  | writer (w : MWriter) : Sink
  | structured (target : Option Json) : Sink

/-- Errors `Client.Do` can return after receiving a response. -/
inductive DoErr where
  | api (e : Error) : DoErr
  | copyFail : DoErr
  | malformed : DoErr

/-- Model of `mlflow.go` lines 108–115: the success-path `switch` on the
result sink.  `io.Copy` copies the whole body into an `io.Writer` sink;
a structured sink is decoded with `json.Decoder`, with a bare `io.EOF`
(structurally empty body) discarded. -/
def successDecode (body : BodyStream) (sink : Sink) : Sink × Option DoErr :=
  match sink with
  | .discard => (.discard, none)
  | .writer w =>
    let (data, _) := readAll body
    let (w1, failed) := wWrite w data
    (.writer w1, if failed then some .copyFail else none)
  | .structured target =>
    match decodeOneValue body.data with
    | .ok (j, _) => (.structured (some j), none)
    | .error .eof => (.structured target, none)
    | .error .malformed => (.structured target, some .malformed)

/-- A received HTTP response: status code and body. -/
structure HttpResponse where
  statusCode : Int
  body : List Char

/-- Model of `mlflow.go` lines 95–117: classify on `res.StatusCode >= 400`,
decode an `Error` on the error path, decode the result on the success path. -/
def doResponse (res : HttpResponse) (sink : Sink) : Sink × Option DoErr :=
  if 400 ≤ res.statusCode then
    (sink, some (.api (errorDecode res.statusCode ⟨res.body⟩)))
  else
    successDecode ⟨res.body⟩ sink

/-- Whether `Client.Do` returned a `*Error` (the API-error path). -/
def isApiError : Option DoErr → Bool
  | some (.api _) => true
  | _ => false

/-- `mlflow.go` lines 120–131, `Client.encodeBody`: a nil payload yields no
buffer and no error; otherwise the `json.Marshal` bytes. -/
def encodeBody : Option Json → Option (List Char)
  | none => none
  | some v => some (render v)

/-- The character that may follow a rendered JSON number without extending
it: not a digit and not a fraction/exponent starter. -/
def restGuard (rest : List Char) : Prop :=
  ∀ c, rest.head? = some c → isDigit c = false ∧ c ≠ '.' ∧ c ≠ 'e' ∧ c ≠ 'E'

/-- `strings.Split(s, "/")`. -/
def splitSlash : List Char → List (List Char)
  | [] => [[]]
  | c :: rest =>
    if c = '/' then [] :: splitSlash rest
    else
      match splitSlash rest with
      | [] => [[c]]
      | seg :: segs => (c :: seg) :: segs

/-- `strings.Join(segs, "/")`. -/
def joinSlash : List (List Char) → List Char
  | [] => []
  | [s] => s
  | s :: t :: ss => s ++ '/' :: joinSlash (t :: ss)

/-- The dot-segment loop of `net/url.resolvePath`: `"."` dropped, `".."` pops
the previous output segment, everything else appended. -/
def rmDot (dst : List (List Char)) : List (List Char) → List (List Char)
  | [] => dst
  | e :: rest =>
    if e = ['.'] then rmDot dst rest
    else if e = ['.', '.'] then rmDot dst.dropLast rest
    else rmDot (dst ++ [e]) rest

/-- `base[:strings.LastIndex(base, "/")+1]`: everything up to and including
the last slash, empty when there is none. -/
def upToLastSlash (base : List Char) : List Char :=
  (base.reverse.dropWhile (fun c => !(c == '/'))).reverse

/-- `strings.TrimPrefix(s, "/")`. -/
def trimLeadSlash : List Char → List Char
  | '/' :: t => t
  | s => s

/-- Second half of `net/url.resolvePath`, operating on the merged path
`full`: split on `/`, remove dot segments (with a trailing slash restored
when the last segment was a dot segment), and return a rooted path. -/
def resolveFull (full : List Char) : List Char :=
  if full = [] then []
  else
    '/' :: trimLeadSlash (joinSlash
      (if (splitSlash full).getLastD [] = ['.'] ∨ (splitSlash full).getLastD [] = ['.', '.']
       then rmDot [] (splitSlash full) ++ [[]]
       else rmDot [] (splitSlash full)))

/-- Model of `net/url.resolvePath(base, ref)` (the path resolution behind
`URL.Parse` / `ResolveReference` for a reference with no scheme and no
authority): merge the paths per RFC 3986 section 5.3, then remove dot
segments via `resolveFull`. -/
def resolvePath (base ref : List Char) : List Char :=
  resolveFull
    (if ref = [] then base
     else if ref.head? ≠ some '/' then upToLastSlash base ++ ref
     else ref)

/-- The fixed API-root segment `NewClient` appends to the base path. -/
def apiRoot : List Char := "api/2.0/mlflow/".toList

/-- `mlflow.go` lines 39–42 of `NewClient`: ensure the parsed base path ends
with a slash, then append the fixed API root. -/
def normalizeBasePath (p : List Char) : List Char :=
  (if p.getLast? = some '/' then p else p ++ ['/']) ++ apiRoot

/-- No `/`-separated segment of `s` is `"."` or `".."`. -/
def noDotSegs (s : List Char) : Bool :=
  (splitSlash s).all (fun seg => !(seg == ['.']) && !(seg == ['.', '.']))

/-- The configurable fields of Go's `http.Client` value, abstracted: a
round-tripper handle and a timeout.  The zero value is the default client. -/
structure HttpClient where
  transport : Option Nat := none
  timeout : Int := 0
deriving DecidableEq, Inhabited

/-- A heap of `http.Client` values; a pointer is an index into it. -/
abbrev Heap := List HttpClient

def hread (h : Heap) (p : Nat) : HttpClient := List.getD h p default

def hwrite (h : Heap) (p : Nat) (v : HttpClient) : Heap := List.set h p v

def halloc (h : Heap) (v : HttpClient) : Heap × Nat := (h ++ [v], h.length)

/-- `mlflow.go` lines 44–52 of `NewClient`: a nil argument is replaced by a
fresh `&http.Client{}`; either way `httpClient2 := *httpClient` copies the
struct by value and the client stores `&httpClient2`.  Returns the heap after
construction and the pointer the client holds. -/
def newClient (h : Heap) (httpClient : Option Nat) : Heap × Nat :=
  match httpClient with
  | none =>
    let (h1, p) := halloc h {}
    let (h2, q) := halloc h1 (hread h1 p)
    (h2, q)
  | some p =>
    let (h1, q) := halloc h (hread h p)
    (h1, q)

/-- An outgoing request as `Client.Do` assembles it (`mlflow.go` lines 67–87):
resolved URL path, optional encoded body, headers. -/
structure Request where
  method : List Char
  urlPath : List Char
  body : Option (List Char)
  headers : List (String × String)

/-- `http.Header.Set`: replaces any existing value for the key. -/
def headerSet (hs : List (String × String)) (k v : String) : List (String × String) :=
  (k, v) :: hs.filter (fun p => !(p.1 == k))

/-- Request assembly in `Client.Do`: resolve the path against the base,
encode the body, and set `content-type: application/json` unconditionally
(line 87 runs whether or not `bodyReader` is nil). -/
def buildRequest (basePath : List Char) (method : List Char) (path : List Char)
    (body : Option Json) : Request :=
  { method := method
    urlPath := resolvePath basePath path
    body := encodeBody body
    headers := headerSet [] "content-type" "application/json" }

/-- First value bound to a header name, as `http.Header.Get` reports it. -/
def headerGet (hs : List (String × String)) (k : String) : Option String :=
  (hs.find? (fun p => p.1 == k)).map (fun p => p.2)

/-- C1 (code_bug): for the malformed body `Bad Gateway` under status 502 the
code returns message `""`, not the raw body text: `json.Decoder` buffered the
whole body before its scan failed, so the fallback `io.Copy` reads nothing. -/
theorem C1_fallback_message_lost :
    doResponse ⟨502, "Bad Gateway".toList⟩ .discard
      = (.discard, some (.api ⟨502, [], []⟩)) ∧
    "Bad Gateway".toList ≠ ([] : List Char) := by
  exact ⟨rfl, by decide⟩

/-- C2 counterexample: a received status of 600 lies outside `[400, 600)`, so
the claim predicts the success path, but `Client.Do` branches on
`res.StatusCode >= 400` with no upper bound and returns a `*Error`. -/
theorem C2_status600_takes_error_path :
    isApiError (doResponse ⟨600, []⟩ .discard).2 = true ∧ ¬((600 : Int) < 600) := by
  exact ⟨rfl, by omega⟩

/-- The success path never returns the API-error variant. -/
theorem successDecode_not_api (b : BodyStream) (s : Sink) :
    isApiError (successDecode b s).2 = false := by
  cases s with
  | discard => rfl
  | writer w =>
    simp only [successDecode, readAll]
    by_cases hw : (wWrite w b.data).2 = true
    · simp [hw, isApiError]
    · simp [hw, isApiError]
  | structured t =>
    simp only [successDecode]
    cases hd : decodeOneValue b.data with
    | ok v => obtain ⟨j, r⟩ := v; simp [isApiError]
    | error pe => cases pe <;> simp [isApiError]

/-- C2 (amended): `Client.Do` takes the error path exactly when the received
status code is at least 400; there is no upper bound at 600. -/
theorem C2_error_path_iff_ge_400 (res : HttpResponse) (sink : Sink) :
    isApiError (doResponse res sink).2 = true ↔ 400 ≤ res.statusCode := by
  unfold doResponse
  by_cases h : 400 ≤ res.statusCode
  · simp [h, isApiError]
  · simp only [if_neg h]
    rw [successDecode_not_api]
    simp [h]

/-- C3 (code_bug): an error body whose JSON object carries a `StatusCode`
member overwrites the status taken from the response — the `StatusCode` field
of `Error` has no json tag, so `encoding/json` matches the key to it.  Under
HTTP status 400 the returned record carries 123 instead. -/
theorem C3_body_overwrites_status :
    doResponse ⟨400, "\x7b\"StatusCode\":123\x7d".toList⟩ .discard
      = (.discard, some (.api ⟨123, [], []⟩)) ∧ (123 : Int) ≠ 400 := by
  exact ⟨rfl, by decide⟩

/-- C4 counterexample: on the error path with an empty body, the returned
record's message is empty, not non-empty. -/
theorem C4_empty_body_empty_message :
    doResponse ⟨400, []⟩ .discard = (.discard, some (.api ⟨400, [], []⟩)) ∧
    (errorDecode 400 ⟨[]⟩).message = [] := by
  exact ⟨rfl, rfl⟩

/-- C4 (amended): whenever the structured decode of the error body fails —
the body does not parse as JSON (empty included), or it parses but does not
unmarshal into the `Error` shape — the fallback sets the message to the part
of the stream the decoder left unread, which is empty under the single-read
stream; the returned record is never guaranteed a non-empty message. -/
theorem C4_fallback_message_empty (status : Int) (body : List Char)
    (hs : 400 ≤ status)
    (hfail : ∀ j r, decodeOneValue body = .ok (j, r) →
      (unmarshalError j ⟨status, [], []⟩).2 = true) :
    (errorDecode status ⟨body⟩).message = [] ∧
    doResponse ⟨status, body⟩ .discard
      = (.discard, some (.api (errorDecode status ⟨body⟩))) := by
  constructor
  · show (match decodeOneValue body with
      | Except.ok (j, _) =>
        (match unmarshalError j { statusCode := status, errorCode := [], message := [] } with
         | (e, errored) => if errored then { e with message := ([] : List Char) } else e)
      | Except.error _ =>
        ({ statusCode := status, errorCode := [], message := [] } : Error)).message = []
    cases hd : decodeOneValue body with
    | error pe => rfl
    | ok jr =>
      obtain ⟨j, r⟩ := jr
      have herr := hfail j r hd
      rcases hu : unmarshalError j ⟨status, [], []⟩ with ⟨e1, b1⟩
      rw [hu] at herr
      simp only at herr
      simp only [hu, herr, if_pos]
  · unfold doResponse
    rw [if_pos hs]

/-- Witness for C4's amended theorem at status 400 with the body `"oops"`:
valid JSON that fails to unmarshal into the `Error` struct. -/
theorem C4_fallback_message_empty_witness :
    (400 : Int) ≤ 400 ∧
    decodeOneValue "\"oops\"".toList = .ok (.str "oops".toList, []) ∧
    (errorDecode 400 ⟨"\"oops\"".toList⟩).message = [] := by
  refine ⟨by omega, rfl, (C4_fallback_message_empty 400 ("\"oops\"".toList) (by omega) ?_).1⟩
  intro j r hjr
  rw [show decodeOneValue ("\"oops\"".toList)
    = Except.ok ((Json.str "oops".toList), ([] : List Char)) from rfl] at hjr
  cases (Prod.mk.inj (Except.ok.inj hjr)).1
  rfl

/-- C6: on the success path a structurally empty body with a structured sink
is not an error — `json.Decoder` reports `io.EOF`, which `Client.Do`
discards, and the sink keeps its zero value. -/
theorem C6_empty_body_structured_ok (res : HttpResponse) (t : Option Json)
    (hs : res.statusCode < 400) (hb : res.body = []) :
    doResponse res (.structured t) = (.structured t, none) := by
  unfold doResponse
  rw [if_neg (by omega)]
  simp [successDecode, hb, decodeOneValue, pVal, skipWs]

/-- Witness for C6 at status 200 with an empty body and a zero-valued sink. -/
theorem C6_empty_body_structured_ok_witness :
    (200 : Int) < 400 ∧
    doResponse ⟨200, []⟩ (.structured none) = (.structured none, none) :=
  ⟨by omega, C6_empty_body_structured_ok ⟨200, []⟩ none (by decide) rfl⟩

/-- C7: on the success path with an `io.Writer` sink, a fault-free writer
receives exactly the body bytes, appended in order and in full; and when the
writer faults, `Client.Do` surfaces the copy failure as its returned error. -/
theorem C7_writer_copies_exactly :
    (∀ (res : HttpResponse) (w : MWriter), res.statusCode < 400 → w.failAfter = none →
      doResponse res (.writer w) = (.writer ⟨w.written ++ res.body, none⟩, none)) ∧
    (∀ (res : HttpResponse) (w : MWriter), res.statusCode < 400 →
      (wWrite w res.body).2 = true →
      (doResponse res (.writer w)).2 = some .copyFail) := by
  constructor
  · intro res w hs hw
    unfold doResponse
    rw [if_neg (by omega)]
    simp [successDecode, readAll, wWrite, hw]
  · intro res w hs hw
    unfold doResponse
    rw [if_neg (by omega)]
    simp [successDecode, readAll, hw]

/-- Witness for C7: a fault-free writer receives the two body bytes; a writer
that faults after one byte makes the call return the copy failure. -/
theorem C7_writer_copies_exactly_witness :
    (200 : Int) < 400 ∧
    doResponse ⟨200, 'a' :: ['b']⟩ (.writer ⟨[], none⟩)
      = (.writer ⟨'a' :: ['b'], none⟩, none) ∧
    (wWrite ⟨[], some 1⟩ ('a' :: ['b'])).2 = true ∧
    (doResponse ⟨200, 'a' :: ['b']⟩ (.writer ⟨[], some 1⟩)).2 = some .copyFail :=
  ⟨by omega,
   C7_writer_copies_exactly.1 ⟨200, 'a' :: ['b']⟩ ⟨[], none⟩ (by decide) rfl,
   rfl,
   C7_writer_copies_exactly.2 ⟨200, 'a' :: ['b']⟩ ⟨[], some 1⟩ (by decide) rfl⟩

/-- C9: the outgoing request carries `content-type: application/json` for
every payload, including the absent one — `Client.Do` sets the header
unconditionally after building the request. -/
theorem C9_content_type_always_set (basePath method path : List Char)
    (body : Option Json) :
    headerGet (buildRequest basePath method path body).headers "content-type"
      = some "application/json" ∧
    (buildRequest basePath method path none).body = none := by
  exact ⟨rfl, rfl⟩

/-- C10: `NewClient` stores a by-value copy of the caller's `http.Client`
(at a freshly allocated address), so writing through the caller's pointer
after construction leaves the client's transport value unchanged; a nil
argument yields a fresh default client. -/
theorem C10_client_copy_no_alias (h : Heap) (p : Nat) (v2 : HttpClient)
    (hp : p < h.length) :
    (newClient h (some p)).2 ≠ p ∧
    hread (newClient h (some p)).1 (newClient h (some p)).2 = hread h p ∧
    hread (hwrite (newClient h (some p)).1 p v2) (newClient h (some p)).2 = hread h p ∧
    hread (newClient h none).1 (newClient h none).2 = {} := by
  refine ⟨by simp only [newClient, halloc]; omega, ?_, ?_, ?_⟩
  · simp only [newClient, halloc, hread, List.getD, List.get?_eq_getElem?]
    rw [List.getElem?_concat_length]
    rfl
  · simp only [newClient, halloc, hread, hwrite, List.getD, List.get?_eq_getElem?]
    rw [List.getElem?_set_ne (by omega : p ≠ h.length), List.getElem?_concat_length]
    rfl
  · simp only [newClient, halloc, hread, List.getD, List.get?_eq_getElem?]
    rw [List.getElem?_concat_length, List.getElem?_concat_length]
    rfl

/-- Witness for C10 on a one-cell heap: mutating the caller's client value
after construction does not change what the constructed client reads. -/
theorem C10_client_copy_no_alias_witness :
    0 < ([⟨some 1, 5⟩] : Heap).length ∧
    hread (hwrite (newClient [⟨some 1, 5⟩] (some 0)).1 0 ⟨none, 9⟩)
      (newClient [⟨some 1, 5⟩] (some 0)).2 = hread [⟨some 1, 5⟩] 0 :=
  ⟨by decide, (C10_client_copy_no_alias [⟨some 1, 5⟩] 0 ⟨none, 9⟩ (by decide)).2.2.1⟩

theorem splitSlash_ne_nil (s : List Char) : splitSlash s ≠ [] := by
  cases s with
  | nil => simp [splitSlash]
  | cons c rest =>
    simp only [splitSlash]
    by_cases hc : c = '/'
    · simp [hc]
    · simp only [if_neg hc]
      cases h : splitSlash rest <;> simp

theorem joinSlash_splitSlash (s : List Char) : joinSlash (splitSlash s) = s := by
  induction s with
  | nil => rfl
  | cons c rest ih =>
    simp only [splitSlash]
    by_cases hc : c = '/'
    · subst hc
      simp only [if_pos rfl]
      cases h : splitSlash rest with
      | nil => exact absurd h (splitSlash_ne_nil rest)
      | cons x xs =>
        rw [h] at ih
        simpa [joinSlash] using ih
    · simp only [if_neg hc]
      cases h : splitSlash rest with
      | nil => exact absurd h (splitSlash_ne_nil rest)
      | cons seg segs =>
        rw [h] at ih
        cases segs with
        | nil => simp only [joinSlash] at ih ⊢; rw [ih]
        | cons t ts =>
          simp only [joinSlash] at ih ⊢
          rw [← ih]
          simp

theorem splitSlash_append (xs ys : List Char) :
    splitSlash (xs ++ ys) =
      (splitSlash xs).dropLast ++
        ((splitSlash xs).getLastD [] ++ (splitSlash ys).headD []) :: (splitSlash ys).tail := by
  induction xs with
  | nil =>
    cases h : splitSlash ys with
    | nil => exact absurd h (splitSlash_ne_nil ys)
    | cons y yss => simp [splitSlash, h]
  | cons c rest ih =>
    by_cases hc : c = '/'
    · subst hc
      simp only [List.cons_append, splitSlash, if_pos rfl, List.append_eq]
      rw [ih]
      cases hS : splitSlash rest with
      | nil => exact absurd hS (splitSlash_ne_nil rest)
      | cons s0 S1 =>
        simp [List.dropLast_cons₂, List.getLastD_cons]
    · simp only [List.cons_append, splitSlash, if_neg hc, List.append_eq]
      rw [ih]
      cases hS : splitSlash rest with
      | nil => exact absurd hS (splitSlash_ne_nil rest)
      | cons s0 S1 =>
        cases S1 with
        | nil => simp [List.getLastD_cons]
        | cons s1 S2 => simp [List.dropLast_cons₂, List.getLastD_cons]

theorem splitSlash_getLastD_slash (xs : List Char) (h : xs.getLast? = some '/') :
    (splitSlash xs).getLastD [] = [] := by
  obtain ⟨t, rfl⟩ := List.getLast?_eq_some_iff.mp h
  rw [splitSlash_append]
  simp [splitSlash, List.getLastD_eq_getLast?, List.getLast?_append]

theorem splitSlash_append_slash (xs ys : List Char) (h : xs.getLast? = some '/') :
    splitSlash (xs ++ ys) = (splitSlash xs).dropLast ++ splitSlash ys := by
  rw [splitSlash_append, splitSlash_getLastD_slash xs h]
  cases hy : splitSlash ys with
  | nil => exact absurd hy (splitSlash_ne_nil ys)
  | cons y yss => simp

theorem mem_splitSlash_append_slash {e : List Char} (xs ys : List Char)
    (h : xs.getLast? = some '/') (he : e ∈ splitSlash (xs ++ ys)) :
    e ∈ splitSlash xs ∨ e ∈ splitSlash ys := by
  rw [splitSlash_append_slash xs ys h] at he
  rcases List.mem_append.mp he with h1 | h2
  · exact Or.inl ((List.dropLast_sublist _).subset h1)
  · exact Or.inr h2

theorem noDotSegs_mem {s : List Char} (h : noDotSegs s = true) :
    ∀ e ∈ splitSlash s, e ≠ ['.'] ∧ e ≠ ['.', '.'] := by
  intro e he
  have hb := List.all_eq_true.mp h e he
  simp only [Bool.and_eq_true, Bool.not_eq_true', beq_eq_false_iff_ne] at hb
  exact hb

theorem rmDot_no_dot (segs : List (List Char)) (dst : List (List Char))
    (h : ∀ e ∈ segs, e ≠ ['.'] ∧ e ≠ ['.', '.']) : rmDot dst segs = dst ++ segs := by
  induction segs generalizing dst with
  | nil => simp [rmDot]
  | cons e rest ih =>
    obtain ⟨h1, h2⟩ := h e (by simp)
    simp only [rmDot, if_neg h1, if_neg h2]
    rw [ih (dst ++ [e]) (fun e2 he2 => h e2 (by simp [he2]))]
    simp

theorem upToLastSlash_getLast_slash (s : List Char) (h : s.getLast? = some '/') :
    upToLastSlash s = s := by
  obtain ⟨t, rfl⟩ := List.getLast?_eq_some_iff.mp h
  unfold upToLastSlash
  rw [List.reverse_append]
  simp [List.dropWhile_cons]

theorem normalizeBasePath_getLast (bp : List Char) :
    (normalizeBasePath bp).getLast? = some '/' := by
  unfold normalizeBasePath
  rw [List.getLast?_append]
  have h : apiRoot.getLast? = some '/' := rfl
  rw [h]
  rfl

theorem noDotSegs_apiRoot : noDotSegs apiRoot = true := rfl

theorem noDotSegs_normalize (bp : List Char) (hnd : noDotSegs bp = true) :
    noDotSegs (normalizeBasePath bp) = true := by
  have hbp2 : ∀ e ∈ splitSlash (if bp.getLast? = some '/' then bp else bp ++ ['/']),
      e ≠ ['.'] ∧ e ≠ ['.', '.'] := by
    by_cases hsl : bp.getLast? = some '/'
    · rw [if_pos hsl]; exact noDotSegs_mem hnd
    · rw [if_neg hsl]
      intro e he
      have hsp : splitSlash ['/'] = [[], []] := rfl
      rw [splitSlash_append, hsp] at he
      simp only [List.headD_cons, List.tail_cons, List.append_nil] at he
      rcases List.mem_append.mp he with h1 | h2
      · exact noDotSegs_mem hnd e ((List.dropLast_sublist _).subset h1)
      · rcases List.mem_cons.mp h2 with h3 | h3
        · subst h3
          rw [List.getLastD_eq_getLast?]
          cases hgl : (splitSlash bp).getLast? with
          | none => exact ⟨by decide, by decide⟩
          | some x =>
            exact noDotSegs_mem hnd x (List.mem_of_mem_getLast? hgl)
        · have h4 : e = [] := by simpa using h3
          subst h4
          exact ⟨by decide, by decide⟩
  have hsl2 : (if bp.getLast? = some '/' then bp else bp ++ ['/']).getLast? = some '/' := by
    by_cases hsl : bp.getLast? = some '/'
    · rw [if_pos hsl]; exact hsl
    · rw [if_neg hsl]; exact List.getLast?_concat bp
  apply List.all_eq_true.mpr
  intro e he
  unfold normalizeBasePath at he
  rcases mem_splitSlash_append_slash _ _ hsl2 he with h1 | h2
  · obtain ⟨g1, g2⟩ := hbp2 e h1
    simp [g1, g2]
  · obtain ⟨g1, g2⟩ := noDotSegs_mem noDotSegs_apiRoot e h2
    simp [g1, g2]

theorem normalizeBasePath_head (bp : List Char) (h : bp = [] ∨ bp.head? = some '/') :
    (normalizeBasePath bp).head? = some '/' := by
  rcases h with rfl | hh
  · rfl
  · unfold normalizeBasePath
    rw [List.head?_append]
    by_cases hsl : bp.getLast? = some '/'
    · rw [if_pos hsl, hh]; rfl
    · rw [if_neg hsl, List.head?_append, hh]; rfl

/-- C5 counterexample: for the base URL `http://host` (empty path, normalized
to `/api/2.0/mlflow/`) the relative path `../x` resolves to `/api/2.0/x`,
which drops the API-root segment — the normalized base is not a prefix of the
resolved path. -/
theorem C5_dotdot_escapes_base :
    resolvePath (normalizeBasePath []) "../x".toList = "/api/2.0/x".toList ∧
    ("/api/2.0/x".toList).take (normalizeBasePath []).length ≠ normalizeBasePath [] := by
  exact ⟨rfl, by decide⟩

/-- C5 (amended): for every base whose parsed path is empty or rooted and
free of dot segments, and every non-empty relative path that does not start
with `/` and has no `.` or `..` segments, the resolved path is exactly the
normalized base (ending in `api/2.0/mlflow/`) followed by the relative path —
in particular the normalized base is a prefix of it.  Relative paths with
`..` segments do escape the base, as the counterexample shows. -/
theorem C5_resolve_keeps_base (bp ref : List Char)
    (hbp : bp = [] ∨ bp.head? = some '/')
    (hnd : noDotSegs bp = true)
    (hr0 : ref ≠ []) (hr1 : ref.head? ≠ some '/')
    (hrnd : noDotSegs ref = true) :
    resolvePath (normalizeBasePath bp) ref = normalizeBasePath bp ++ ref ∧
    ∃ t, resolvePath (normalizeBasePath bp) ref = normalizeBasePath bp ++ t := by
  have hlast : (normalizeBasePath bp).getLast? = some '/' := normalizeBasePath_getLast bp
  have hmain : resolvePath (normalizeBasePath bp) ref = normalizeBasePath bp ++ ref := by
    unfold resolvePath
    rw [if_neg hr0, if_pos hr1, upToLastSlash_getLast_slash _ hlast]
    unfold resolveFull
    have hfne : normalizeBasePath bp ++ ref ≠ [] := by
      intro hfe
      exact hr0 (List.append_eq_nil.mp hfe).2
    rw [if_neg hfne]
    have hsegs : ∀ e ∈ splitSlash (normalizeBasePath bp ++ ref),
        e ≠ ['.'] ∧ e ≠ ['.', '.'] := by
      intro e he
      rcases mem_splitSlash_append_slash _ _ hlast he with h1 | h2
      · exact noDotSegs_mem (noDotSegs_normalize bp hnd) e h1
      · exact noDotSegs_mem hrnd e h2
    rw [rmDot_no_dot _ [] hsegs]
    have hlseg : (splitSlash (normalizeBasePath bp ++ ref)).getLastD [] ≠ ['.'] ∧
        (splitSlash (normalizeBasePath bp ++ ref)).getLastD [] ≠ ['.', '.'] := by
      rw [List.getLastD_eq_getLast?]
      cases hgl : (splitSlash (normalizeBasePath bp ++ ref)).getLast? with
      | none => exact ⟨by decide, by decide⟩
      | some x =>
        exact hsegs x (List.mem_of_mem_getLast? hgl)
    rw [if_neg (by push_neg; exact hlseg), List.nil_append, joinSlash_splitSlash]
    have hhd : (normalizeBasePath bp ++ ref).head? = some '/' := by
      rw [List.head?_append, normalizeBasePath_head bp hbp]
      rfl
    obtain ⟨t, ht⟩ := List.head?_eq_some_iff.mp hhd
    rw [ht]
    rfl
  exact ⟨hmain, ref, hmain⟩

/-- Witness for C5's amended theorem: base path `/base`, relative path
`experiments/create`. -/
theorem C5_resolve_keeps_base_witness :
    resolvePath (normalizeBasePath "/base".toList) "experiments/create".toList
      = normalizeBasePath "/base".toList ++ "experiments/create".toList :=
  (C5_resolve_keeps_base "/base".toList "experiments/create".toList
    (Or.inr rfl) (by decide) (by decide) (by decide) (by decide)).1

theorem jsize_pos (v : Json) : 1 ≤ jsize v := by
  cases v <;> simp [jsize]

theorem lsizeJ_pos {l : List Json} (h : l ≠ []) : 1 ≤ lsizeJ l := by
  cases l with
  | nil => exact absurd rfl h
  | cons x xs => simp only [lsizeJ]; omega

theorem fsizeJ_pos {fs : List (List Char × Json)} (h : fs ≠ []) : 1 ≤ fsizeJ fs := by
  cases fs with
  | nil => exact absurd rfl h
  | cons kv fs2 => obtain ⟨k, v⟩ := kv; simp only [fsizeJ]; omega

theorem digitChar_toNat {d : Nat} (h : d < 10) : (digitChar d).toNat = 48 + d := by
  interval_cases d <;> decide

theorem isDigit_digitChar {d : Nat} (h : d < 10) : isDigit (digitChar d) = true := by
  interval_cases d <;> decide

theorem digitsVal_append_one (xs : List Char) (c : Char) :
    digitsVal (xs ++ [c]) = digitsVal xs * 10 + (c.toNat - 48) := by
  simp [digitsVal, List.foldl_append]

theorem digitsVal_natDigitsAux : ∀ fuel n, n < fuel →
    digitsVal (natDigitsAux fuel n) = n := by
  intro fuel
  induction fuel with
  | zero => omega
  | succ fuel ih =>
    intro n hn
    by_cases h10 : n < 10
    · simp only [natDigitsAux, if_pos h10]
      simp [digitsVal, digitChar_toNat h10]
    · simp only [natDigitsAux, if_neg h10]
      rw [digitsVal_append_one, ih (n / 10) (by omega), digitChar_toNat (by omega : n % 10 < 10)]
      omega

theorem digitsVal_natDigits (n : Nat) : digitsVal (natDigits n) = n :=
  digitsVal_natDigitsAux (n + 1) n (by omega)

theorem natDigitsAux_all_digits : ∀ fuel n, ∀ c ∈ natDigitsAux fuel n, isDigit c = true := by
  intro fuel
  induction fuel with
  | zero => intro n c hc; simp [natDigitsAux] at hc
  | succ fuel ih =>
    intro n c hc
    by_cases h10 : n < 10
    · simp only [natDigitsAux, if_pos h10, List.mem_singleton] at hc
      subst hc
      exact isDigit_digitChar h10
    · simp only [natDigitsAux, if_neg h10, List.mem_append, List.mem_singleton] at hc
      rcases hc with hc | hc
      · exact ih (n / 10) c hc
      · subst hc
        exact isDigit_digitChar (by omega)

theorem natDigits_all_digits (n : Nat) : ∀ c ∈ natDigits n, isDigit c = true :=
  natDigitsAux_all_digits (n + 1) n

theorem natDigits_ne_nil (n : Nat) : natDigits n ≠ [] := by
  unfold natDigits natDigitsAux
  by_cases h10 : n < 10
  · simp [h10]
  · simp [h10]

theorem takeWhile_append_all {p : Char → Bool} (ds rest : List Char)
    (h : ∀ c ∈ ds, p c = true) (h2 : ∀ c, rest.head? = some c → p c = false) :
    (ds ++ rest).takeWhile p = ds ∧ (ds ++ rest).dropWhile p = rest := by
  induction ds with
  | nil =>
    simp only [List.nil_append]
    cases rest with
    | nil => simp
    | cons c t =>
      have hc := h2 c rfl
      simp [List.takeWhile_cons, List.dropWhile_cons, hc]
  | cons d ds ih =>
    have hd := h d (by simp)
    obtain ⟨ih1, ih2⟩ := ih (fun c hc => h c (by simp [hc]))
    simp [List.takeWhile_cons, List.dropWhile_cons, hd, ih1, ih2]

theorem digit_excludes {c : Char} (h : isDigit c = true) :
    c ≠ 'n' ∧ c ≠ 't' ∧ c ≠ 'f' ∧ c ≠ '"' ∧ c ≠ '[' ∧ c ≠ '{' ∧ c ≠ '-' ∧
    c ≠ ']' ∧ c ≠ '}' ∧ c ≠ ',' ∧ isWs c = false := by
  have hne : ∀ x : Char, isDigit x = false → c ≠ x := by
    intro x hx hcx
    rw [hcx, hx] at h
    exact absurd h (by simp)
  refine ⟨hne 'n' (by decide), hne 't' (by decide), hne 'f' (by decide),
    hne '"' (by decide), hne '[' (by decide), hne '{' (by decide),
    hne '-' (by decide), hne ']' (by decide), hne '}' (by decide),
    hne ',' (by decide), ?_⟩
  have h1 : c ≠ ' ' := hne ' ' (by decide)
  have h2 : c ≠ '\t' := hne '\t' (by decide)
  have h3 : c ≠ '\n' := hne '\n' (by decide)
  have h4 : c ≠ '\r' := hne '\r' (by decide)
  simp [isWs, h1, h2, h3, h4]

theorem pNumCore_digits (m : Nat) (rest : List Char) (mk : Nat → Int)
    (h : restGuard rest) :
    pNumCore (natDigits m ++ rest) mk = .ok (.num (mk m), rest) := by
  obtain ⟨htw, hdw⟩ := takeWhile_append_all (natDigits m) rest (natDigits_all_digits m)
    (fun c hc => (h c hc).1)
  unfold pNumCore
  rw [htw, hdw]
  rw [if_neg (by simp [List.isEmpty_iff, natDigits_ne_nil m])]
  cases rest with
  | nil => rw [if_neg (by simp), digitsVal_natDigits]
  | cons c t =>
    obtain ⟨g1, g2, g3, g4⟩ := h c rfl
    rw [if_neg (by simp [g2, g3, g4]), digitsVal_natDigits]

theorem pNumber_render (n : Int) (rest : List Char) (h : restGuard rest) :
    pNumber (intRender n ++ rest) = .ok (.num n, rest) := by
  unfold intRender
  by_cases hn : n < 0
  · rw [if_pos hn]
    show pNumber ('-' :: (natDigits n.natAbs ++ rest)) = _
    unfold pNumber
    simp only [List.head?_cons, List.tail_cons]
    rw [if_pos trivial, pNumCore_digits n.natAbs rest _ h]
    simp only [Except.ok.injEq, Prod.mk.injEq, Json.num.injEq, and_true]
    omega
  · rw [if_neg hn]
    cases hnd : natDigits n.natAbs with
    | nil => exact absurd hnd (natDigits_ne_nil n.natAbs)
    | cons c t =>
      have hdig : isDigit c = true := natDigits_all_digits n.natAbs c (by rw [hnd]; simp)
      have hcm : c ≠ '-' := (digit_excludes hdig).2.2.2.2.2.2.1
      unfold pNumber
      simp only [List.cons_append, List.head?_cons]
      rw [if_neg (by simp [hcm])]
      have heq : c :: (t ++ rest) = natDigits n.natAbs ++ rest := by rw [hnd]; rfl
      rw [heq, pNumCore_digits n.natAbs rest _ h]
      simp only [Except.ok.injEq, Prod.mk.injEq, Json.num.injEq, and_true]
      omega

theorem safeChar_props {c : Char} (h : safeChar c = true) :
    c ≠ '"' ∧ c ≠ '\\' := by
  have hq : c ≠ '"' := by
    intro hc; rw [hc] at h; exact absurd h (by decide)
  have hb : c ≠ '\\' := by
    intro hc; rw [hc] at h; exact absurd h (by decide)
  exact ⟨hq, hb⟩

theorem hexVal_hexDigitChar {d : Nat} (h : d < 16) : hexVal (hexDigitChar d) = some d := by
  interval_cases d <;> decide

/-- A character escaped by the `encoding/json` encoder only ever reaches the
`\uXXXX` form with a code point below 0x10000: code points at or above 0x20
other than the handled specials are emitted verbatim. -/
theorem escaped_toNat_lt {c : Char} (h0 : ¬ safeChar c = true)
    (h1 : c ≠ '"') (h2 : c ≠ '\\') (h3 : c ≠ '\n') (h4 : c ≠ '\r') (h5 : c ≠ '\t') :
    c.toNat < 65536 := by
  by_cases h32 : c.toNat < 32
  · omega
  · by_cases hA : c = '<'
    · rw [hA]; decide
    by_cases hB : c = '>'
    · rw [hB]; decide
    by_cases hC : c = '&'
    · rw [hC]; decide
    by_cases hD : c.toNat = 0x2028
    · omega
    by_cases hE : c.toNat = 0x2029
    · omega
    exfalso
    apply h0
    have h32b : 32 ≤ c.toNat := by omega
    simp [safeChar, h32b, h1, h2, hA, hB, hC, hD, hE]

/-- One escaped character reverses through the string parser, for every
character: the verbatim, short-escape and `\uXXXX` forms all decode back. -/
theorem pStringAux_escape_cons (c : Char) (tail : List Char) :
    pStringAux (escapeChar c ++ tail) = (pStringAux tail).map (fun p => (c :: p.1, p.2)) := by
  unfold escapeChar
  by_cases h0 : safeChar c = true
  · rw [if_pos h0]
    obtain ⟨h1, h2⟩ := safeChar_props h0
    show pStringAux (c :: tail) = _
    conv_lhs => unfold pStringAux
    rw [if_neg h1, if_neg h2]
  · rw [if_neg h0]
    by_cases hq : c = '"'
    · rw [if_pos hq, hq]; rfl
    rw [if_neg hq]
    by_cases hb : c = '\\'
    · rw [if_pos hb, hb]; rfl
    rw [if_neg hb]
    by_cases hn : c = '\n'
    · rw [if_pos hn, hn]; rfl
    rw [if_neg hn]
    by_cases hr : c = '\r'
    · rw [if_pos hr, hr]; rfl
    rw [if_neg hr]
    by_cases ht : c = '\t'
    · rw [if_pos ht, ht]; rfl
    rw [if_neg ht]
    have hv : c.toNat < 65536 := escaped_toNat_lt h0 hq hb hn hr ht
    show pStringAux ('\\' :: 'u' :: hexDigitChar (c.toNat / 4096 % 16)
      :: hexDigitChar (c.toNat / 256 % 16) :: hexDigitChar (c.toNat / 16 % 16)
      :: hexDigitChar (c.toNat % 16) :: tail) = _
    rw [show pStringAux ('\\' :: 'u' :: hexDigitChar (c.toNat / 4096 % 16)
          :: hexDigitChar (c.toNat / 256 % 16) :: hexDigitChar (c.toNat / 16 % 16)
          :: hexDigitChar (c.toNat % 16) :: tail)
        = (match hexVal (hexDigitChar (c.toNat / 4096 % 16)),
                 hexVal (hexDigitChar (c.toNat / 256 % 16)),
                 hexVal (hexDigitChar (c.toNat / 16 % 16)),
                 hexVal (hexDigitChar (c.toNat % 16)) with
           | some a, some b, some c1, some d =>
             (pStringAux tail).map
               (fun p => (Char.ofNat (4096 * a + 256 * b + 16 * c1 + d) :: p.1, p.2))
           | _, _, _, _ => none) from rfl]
    rw [hexVal_hexDigitChar (show c.toNat / 4096 % 16 < 16 by omega),
      hexVal_hexDigitChar (show c.toNat / 256 % 16 < 16 by omega),
      hexVal_hexDigitChar (show c.toNat / 16 % 16 < 16 by omega),
      hexVal_hexDigitChar (show c.toNat % 16 < 16 by omega)]
    show (pStringAux tail).map
        (fun p => (Char.ofNat (4096 * (c.toNat / 4096 % 16) + 256 * (c.toNat / 256 % 16)
          + 16 * (c.toNat / 16 % 16) + c.toNat % 16) :: p.1, p.2)) = _
    rw [show 4096 * (c.toNat / 4096 % 16) + 256 * (c.toNat / 256 % 16)
      + 16 * (c.toNat / 16 % 16) + c.toNat % 16 = c.toNat from by omega]
    rw [Char.ofNat_toNat]

/-- The body of a rendered JSON string literal reverses through the string
parser for every string, escapes included. -/
theorem pStringAux_flatMap (s rest : List Char) :
    pStringAux (s.flatMap escapeChar ++ '"' :: rest) = some (s, rest) := by
  induction s with
  | nil =>
    show pStringAux ('"' :: rest) = _
    unfold pStringAux
    rw [if_pos rfl]
  | cons c cs ih =>
    rw [List.flatMap_cons, List.append_assoc, pStringAux_escape_cons, ih]
    rfl

theorem skipWs_not_ws {c : Char} (t : List Char) (h : isWs c = false) :
    skipWs (c :: t) = c :: t := by
  simp [skipWs, h]

theorem nestErr_ok {α : Type} (x : α) : nestErr (.ok x) = (.ok x : Except PErr α) := rfl

theorem render_head (v : Json) :
    ∃ c t, render v = c :: t ∧ isWs c = false ∧ c ≠ ']' ∧ c ≠ '}' ∧ c ≠ ',' := by
  cases v with
  | null => exact ⟨'n', ['u', 'l', 'l'], rfl, by decide, by decide, by decide, by decide⟩
  | bool b =>
    cases b with
    | true => exact ⟨'t', ['r', 'u', 'e'], rfl, by decide, by decide, by decide, by decide⟩
    | false => exact ⟨'f', ['a', 'l', 's', 'e'], rfl, by decide, by decide, by decide, by decide⟩
  | num n =>
    show ∃ c t, intRender n = c :: t ∧ _
    unfold intRender
    by_cases hn : n < 0
    · rw [if_pos hn]
      exact ⟨'-', natDigits n.natAbs, rfl, by decide, by decide, by decide, by decide⟩
    · rw [if_neg hn]
      cases hnd : natDigits n.natAbs with
      | nil => exact absurd hnd (natDigits_ne_nil n.natAbs)
      | cons c t =>
        have hdig : isDigit c = true := natDigits_all_digits n.natAbs c (by rw [hnd]; simp)
        obtain ⟨_, _, _, _, _, _, _, g8, g9, g10, g11⟩ := digit_excludes hdig
        exact ⟨c, t, rfl, g11, g8, g9, g10⟩
  | str s =>
    exact ⟨'"', s.flatMap escapeChar ++ ['"'], rfl, by decide, by decide, by decide, by decide⟩
  | arr l =>
    exact ⟨'[', renderElems l ++ [']'], rfl, by decide, by decide, by decide, by decide⟩
  | obj fs =>
    exact ⟨'{', renderFields fs ++ ['}'], rfl, by decide, by decide, by decide, by decide⟩

theorem restGuard_nil : restGuard [] := by
  intro c hc
  simp at hc

theorem restGuard_cons {c : Char} (t : List Char)
    (h : isDigit c = false ∧ c ≠ '.' ∧ c ≠ 'e' ∧ c ≠ 'E') : restGuard (c :: t) := by
  intro c2 hc2
  simp only [List.head?_cons, Option.some.injEq] at hc2
  subst hc2
  exact h

mutual

theorem jsize_le_render (v : Json) : jsize v ≤ (render v).length := by
  cases v with
  | null => simp [jsize, render]
  | bool b => cases b <;> simp [jsize, render]
  | num n =>
    cases hnd : natDigits n.natAbs with
    | nil => exact absurd hnd (natDigits_ne_nil n.natAbs)
    | cons c t =>
      show jsize (.num n) ≤ (intRender n).length
      unfold intRender
      by_cases hn : n < 0 <;> simp [hn, jsize, hnd]
  | str s => simp [jsize, render, renderStr]
  | arr l =>
    have h1 := lsizeJ_le_renderElems l
    simp only [jsize, render, List.length_cons, List.length_append, List.length_singleton]
    omega
  | obj fs =>
    have h1 := fsizeJ_le_renderFields fs
    simp only [jsize, render, List.length_cons, List.length_append, List.length_singleton]
    omega

theorem lsizeJ_le_renderElems (l : List Json) : lsizeJ l ≤ (renderElems l).length + 1 := by
  cases l with
  | nil => simp [lsizeJ]
  | cons x xs =>
    have h1 := jsize_le_render x
    cases xs with
    | nil =>
      simp only [lsizeJ, renderElems]
      omega
    | cons y ys =>
      have h2 := lsizeJ_le_renderElems (y :: ys)
      simp only [lsizeJ, renderElems, List.length_append, List.length_cons]
      simp only [lsizeJ] at h2
      omega

theorem fsizeJ_le_renderFields (fs : List (List Char × Json)) :
    fsizeJ fs ≤ (renderFields fs).length + 1 := by
  cases fs with
  | nil => simp [fsizeJ]
  | cons kv fs2 =>
    obtain ⟨k, v⟩ := kv
    have h1 := jsize_le_render v
    cases fs2 with
    | nil =>
      simp only [fsizeJ, renderFields, List.length_append, List.length_cons]
      omega
    | cons kv2 gs =>
      have h2 := fsizeJ_le_renderFields (kv2 :: gs)
      simp only [fsizeJ, renderFields, List.length_append, List.length_cons]
      simp only [fsizeJ] at h2
      omega

end

theorem intRender_head (n : Int) :
    ∃ c t, intRender n = c :: t ∧ (c = '-' ∨ isDigit c = true) := by
  unfold intRender
  by_cases hn : n < 0
  · rw [if_pos hn]
    exact ⟨'-', natDigits n.natAbs, rfl, Or.inl rfl⟩
  · rw [if_neg hn]
    cases hnd : natDigits n.natAbs with
    | nil => exact absurd hnd (natDigits_ne_nil n.natAbs)
    | cons c t =>
      exact ⟨c, t, rfl, Or.inr (natDigits_all_digits n.natAbs c (by rw [hnd]; simp))⟩

theorem pVal_step_num (fuel : Nat) {s : List Char} {c : Char} {T : List Char}
    (hskip : skipWs s = c :: T)
    (h1 : c ≠ 'n') (h2 : c ≠ 't') (h3 : c ≠ 'f') (h4 : c ≠ '"') (h5 : c ≠ '[')
    (h6 : c ≠ '{') (h7 : (c = '-' || isDigit c) = true) :
    pVal (fuel + 1) s = pNumber (c :: T) := by
  simp only [pVal, hskip]
  rw [if_neg h1, if_neg h2, if_neg h3, if_neg h4, if_neg h5, if_neg h6, if_pos h7]

theorem pVal_step_str (fuel : Nat) {s T : List Char} (hskip : skipWs s = '"' :: T) :
    pVal (fuel + 1) s =
      (match pStringAux T with
       | some (cs, r) => .ok (.str cs, r)
       | none => .error .malformed) := by
  simp only [pVal, hskip]
  rw [if_neg (by decide), if_neg (by decide), if_neg (by decide), if_pos trivial]

theorem pVal_step_arr (fuel : Nat) {s T : List Char} (hskip : skipWs s = '[' :: T) :
    pVal (fuel + 1) s =
      (if (skipWs T).head? = some ']' then .ok (.arr [], (skipWs T).tail)
       else (pElems fuel (skipWs T)).map (fun p => (.arr p.1, p.2))) := by
  simp only [pVal, hskip]
  rw [if_neg (by decide), if_neg (by decide), if_neg (by decide), if_neg (by decide),
    if_pos trivial]

theorem pVal_step_obj (fuel : Nat) {s T : List Char} (hskip : skipWs s = '{' :: T) :
    pVal (fuel + 1) s =
      (if (skipWs T).head? = some '}' then .ok (.obj [], (skipWs T).tail)
       else (pFields fuel (skipWs T)).map (fun p => (.obj p.1, p.2))) := by
  simp only [pVal, hskip]
  rw [if_neg (by decide), if_neg (by decide), if_neg (by decide), if_neg (by decide),
    if_neg (by decide), if_pos trivial]

theorem pElems_step (fuel : Nat) {s : List Char} {x : Json} {s1 : List Char}
    (hpv : pVal fuel s = .ok (x, s1)) :
    pElems (fuel + 1) s =
      (if (skipWs s1).head? = some ',' then
        (pElems fuel (skipWs s1).tail).map (fun p => (x :: p.1, p.2))
      else if (skipWs s1).head? = some ']' then .ok ([x], (skipWs s1).tail)
      else .error .malformed) := by
  simp only [pElems, hpv, nestErr_ok]
  rfl

theorem pFields_step (fuel : Nat) {s T : List Char} {k r1 : List Char} {v : Json}
    {r2 r3 : List Char}
    (hskip : skipWs s = '"' :: T) (hps : pStringAux T = some (k, r1))
    (hcol : skipWs r1 = ':' :: r2) (hpv : pVal fuel r2 = .ok (v, r3)) :
    pFields (fuel + 1) s =
      (if (skipWs r3).head? = some ',' then
        (pFields fuel (skipWs r3).tail).map (fun p => ((k, v) :: p.1, p.2))
      else if (skipWs r3).head? = some '}' then .ok ([(k, v)], (skipWs r3).tail)
      else .error .malformed) := by
  simp only [pFields, hskip, List.head?_cons, List.tail_cons, hps, hcol, hpv, nestErr_ok]
  rfl

theorem renderElems_append_head (x : Json) (xs : List Json) (A : List Char) :
    ∃ c, (renderElems (x :: xs) ++ A).head? = some c ∧ isWs c = false ∧ c ≠ ']' := by
  obtain ⟨c, t, hct, hws, hbr, _, _⟩ := render_head x
  refine ⟨c, ?_, hws, hbr⟩
  cases xs with
  | nil =>
    show (render x ++ A).head? = some c
    rw [hct, List.cons_append, List.head?_cons]
  | cons y ys =>
    show ((render x ++ ',' :: renderElems (y :: ys)) ++ A).head? = some c
    rw [hct]
    simp

/-- Parsing inverts rendering: with enough fuel, `pVal` consumes exactly the
rendering of a well-formed value (and `pElems`/`pFields` the renderings of
non-empty element and member lists followed by their closing bracket). -/
theorem render_rt (fuel : Nat) :
    (∀ v rest, jsize v ≤ fuel → restGuard rest →
      pVal fuel (render v ++ rest) = .ok (v, rest)) ∧
    (∀ l rest, l ≠ [] → lsizeJ l ≤ fuel →
      pElems fuel (renderElems l ++ ']' :: rest) = .ok (l, rest)) ∧
    (∀ fs rest, fs ≠ [] → fsizeJ fs ≤ fuel →
      pFields fuel (renderFields fs ++ '}' :: rest) = .ok (fs, rest)) := by
  induction fuel with
  | zero =>
    refine ⟨fun v rest hsz hg => absurd hsz (by have := jsize_pos v; omega),
            fun l rest hne hsz => absurd hsz (by have := lsizeJ_pos hne; omega),
            fun fs rest hne hsz => absurd hsz (by have := fsizeJ_pos hne; omega)⟩
  | succ fuel ih =>
    obtain ⟨ihV, ihE, ihF⟩ := ih
    refine ⟨?_, ?_, ?_⟩
    · intro v rest hsz hg
      cases v with
      | null => rfl
      | bool b => cases b <;> rfl
      | num n =>
        obtain ⟨c, t, hct, hcd⟩ := intRender_head n
        have hf : c ≠ 'n' ∧ c ≠ 't' ∧ c ≠ 'f' ∧ c ≠ '"' ∧ c ≠ '[' ∧ c ≠ '{' ∧
            isWs c = false ∧ (c = '-' || isDigit c) = true := by
          rcases hcd with rfl | hd
          · exact ⟨by decide, by decide, by decide, by decide, by decide, by decide,
              by decide, by decide⟩
          · obtain ⟨g1, g2, g3, g4, g5, g6, _, _, _, _, g11⟩ := digit_excludes hd
            exact ⟨g1, g2, g3, g4, g5, g6, g11, by simp [hd]⟩
        have hin : render (.num n) ++ rest = c :: (t ++ rest) := by
          show intRender n ++ rest = _
          rw [hct, List.cons_append]
        rw [hin, pVal_step_num fuel (skipWs_not_ws _ hf.2.2.2.2.2.2.1) hf.1 hf.2.1 hf.2.2.1
          hf.2.2.2.1 hf.2.2.2.2.1 hf.2.2.2.2.2.1 hf.2.2.2.2.2.2.2]
        rw [← List.cons_append, ← hct]
        exact pNumber_render n rest hg
      | str s0 =>
        have hin : render (.str s0) ++ rest
            = '"' :: (s0.flatMap escapeChar ++ '"' :: rest) := by
          show renderStr s0 ++ rest = _
          simp [renderStr]
        rw [hin, pVal_step_str fuel (skipWs_not_ws _ (by decide))]
        rw [pStringAux_flatMap s0 rest]
      | arr l =>
        cases l with
        | nil => rfl
        | cons x xs =>
          have hin : render (.arr (x :: xs)) ++ rest
              = '[' :: (renderElems (x :: xs) ++ ']' :: rest) := by
            show ('[' :: renderElems (x :: xs) ++ [']']) ++ rest = _
            simp
          rw [hin, pVal_step_arr fuel (skipWs_not_ws _ (by decide))]
          obtain ⟨c, hh, hws, hbr⟩ := renderElems_append_head x xs (']' :: rest)
          have hsk : skipWs (renderElems (x :: xs) ++ ']' :: rest)
              = renderElems (x :: xs) ++ ']' :: rest := by
            obtain ⟨T2, hT2⟩ := List.head?_eq_some_iff.mp hh
            rw [hT2]
            exact skipWs_not_ws _ hws
          rw [if_neg (by rw [hsk, hh]; simp [hbr])]
          rw [hsk, ihE (x :: xs) rest (by simp) (by simp only [jsize] at hsz; omega)]
          rfl
      | obj fs =>
        cases fs with
        | nil => rfl
        | cons kv gs =>
          obtain ⟨k, v0⟩ := kv
          have hin : render (.obj ((k, v0) :: gs)) ++ rest
              = '{' :: (renderFields ((k, v0) :: gs) ++ '}' :: rest) := by
            show ('{' :: renderFields ((k, v0) :: gs) ++ ['}']) ++ rest = _
            simp
          rw [hin, pVal_step_obj fuel (skipWs_not_ws _ (by decide))]
          have hh : (renderFields ((k, v0) :: gs) ++ '}' :: rest).head? = some '"' := by
            cases gs with
            | nil =>
              show ((renderStr k ++ ':' :: render v0) ++ '}' :: rest).head? = _
              simp [renderStr]
            | cons g2 gs2 =>
              show ((renderStr k ++ ':' :: render v0 ++ ',' :: renderFields (g2 :: gs2))
                ++ '}' :: rest).head? = _
              simp [renderStr]
          have hsk : skipWs (renderFields ((k, v0) :: gs) ++ '}' :: rest)
              = renderFields ((k, v0) :: gs) ++ '}' :: rest := by
            obtain ⟨T2, hT2⟩ := List.head?_eq_some_iff.mp hh
            rw [hT2]
            exact skipWs_not_ws _ (by decide)
          rw [if_neg (by rw [hsk, hh]; simp)]
          rw [hsk, ihF ((k, v0) :: gs) rest (by simp)
            (by simp only [jsize] at hsz; omega)]
          rfl
    · intro l rest hne hsz
      cases l with
      | nil => exact absurd rfl hne
      | cons x xs =>
        cases xs with
        | nil =>
          have hpv : pVal fuel (render x ++ ']' :: rest) = .ok (x, ']' :: rest) :=
            ihV x (']' :: rest) (by simp only [lsizeJ] at hsz; omega)
              (restGuard_cons _ (by decide))
          show pElems (fuel + 1) (render x ++ ']' :: rest) = _
          rw [pElems_step fuel hpv]
          rfl
        | cons y ys =>
          have harr : renderElems (x :: y :: ys) ++ ']' :: rest
              = render x ++ ',' :: (renderElems (y :: ys) ++ ']' :: rest) := by
            show (render x ++ ',' :: renderElems (y :: ys)) ++ ']' :: rest = _
            simp
          have hpv : pVal fuel (render x ++ ',' :: (renderElems (y :: ys) ++ ']' :: rest))
              = .ok (x, ',' :: (renderElems (y :: ys) ++ ']' :: rest)) :=
            ihV x _ (by simp only [lsizeJ] at hsz; omega)
              (restGuard_cons _ (by decide))
          rw [harr, pElems_step fuel hpv]
          rw [skipWs_not_ws _ (by decide)]
          simp only [List.head?_cons, List.tail_cons]
          rw [if_pos trivial]
          rw [ihE (y :: ys) rest (by simp) (by simp only [lsizeJ] at hsz ⊢; omega)]
          rfl
    · intro fs rest hne hsz
      cases fs with
      | nil => exact absurd rfl hne
      | cons kv gs =>
        obtain ⟨k, v0⟩ := kv
        cases gs with
        | nil =>
          have hform : renderFields [(k, v0)] ++ '}' :: rest
              = '"' :: (k.flatMap escapeChar ++ '"' :: ':' :: (render v0 ++ '}' :: rest)) := by
            show (renderStr k ++ ':' :: render v0) ++ '}' :: rest = _
            simp [renderStr]
          have hpv : pVal fuel (render v0 ++ '}' :: rest) = .ok (v0, '}' :: rest) :=
            ihV v0 ('}' :: rest) (by simp only [fsizeJ] at hsz; omega)
              (restGuard_cons _ (by decide))
          rw [hform, pFields_step fuel (skipWs_not_ws _ (by decide))
            (pStringAux_flatMap k _) (skipWs_not_ws _ (by decide)) hpv]
          rfl
        | cons g2 gs2 =>
          have hform : renderFields ((k, v0) :: g2 :: gs2) ++ '}' :: rest
              = '"' :: (k.flatMap escapeChar ++ '"' :: ':' ::
                  (render v0 ++ ',' :: (renderFields (g2 :: gs2) ++ '}' :: rest))) := by
            show (renderStr k ++ ':' :: render v0 ++ ',' :: renderFields (g2 :: gs2))
              ++ '}' :: rest = _
            simp [renderStr]
          have hpv : pVal fuel
              (render v0 ++ ',' :: (renderFields (g2 :: gs2) ++ '}' :: rest))
              = .ok (v0, ',' :: (renderFields (g2 :: gs2) ++ '}' :: rest)) :=
            ihV v0 _ (by simp only [fsizeJ] at hsz; omega)
              (restGuard_cons _ (by decide))
          rw [hform, pFields_step fuel (skipWs_not_ws _ (by decide))
            (pStringAux_flatMap k _) (skipWs_not_ws _ (by decide)) hpv]
          rw [skipWs_not_ws _ (by decide)]
          simp only [List.head?_cons, List.tail_cons]
          rw [if_pos trivial]
          rw [ihF (g2 :: gs2) rest (by simp) (by simp only [fsizeJ] at hsz ⊢; omega)]
          rfl

/-- C8: `encodeBody` yields no buffer and no error exactly for the nil
payload; for every payload value of the modelled JSON fragment — strings
arbitrary, escapes included — JSON-decoding the bytes `encodeBody` produced
yields the original value back, with nothing left over. -/
theorem C8_encode_decode_roundtrip (v : Json) :
    (∀ p : Option Json, encodeBody p = none ↔ p = none) ∧
    encodeBody (some v) = some (render v) ∧
    decodeOneValue (render v) = .ok (v, []) := by
  refine ⟨?_, rfl, ?_⟩
  · intro p
    cases p <;> simp [encodeBody]
  · have h := (render_rt ((render v).length + 1)).1 v []
      (by have := jsize_le_render v; omega) restGuard_nil
    rw [List.append_nil] at h
    exact h

end Mlflow
